import Mathlib
set_option maxRecDepth 40000

/-!
Verification of the classical-cipher cracking tools of this repository
(`tool_affinecipher` and `tool_vigenerecipher`) against their design
specification.

The tool sources under `src/` are shallowly embedded below.  Characters are
modelled by their integer codes: as `Int` on the affine side (where
`std::string::find` results are stored into `char` variables, so the
not-found value `npos` truncates to `-1` and negative values can flow into
the arithmetic), and as `Nat` on the Vigenere side (where only byte values
`0..254` occur).

The repository's cryptographic support library (`cryptomath`,
`affinecipher`, `freq_count`) is not part of the source tree given here;
the specification declares it an external collaborator.  Definitions in
the `cryptomath` and `affine` namespaces below are therefore modelled from
the specification, as marked in their doc comments.
-/

namespace cryptomath

/-- Modelled from the spec: the `mod` primitive of the external
`cryptomath` library, mathematical (always-nonnegative for a positive
modulus) remainder.  Lean's `Int.emod` has exactly this behaviour. -/
def mod (a n : Int) : Int := a % n

/-- Modelled from the spec: the `gcd` primitive of the external
`cryptomath` library. -/
def gcd (a b : Int) : Nat := Int.gcd a b

/-- Modelled from the spec: the `inverseMod` primitive of the external
`cryptomath` library.  It returns the multiplicative inverse of `a`
modulo `n` (a value in `[1, n)`), or `0` when no inverse exists; the
affine tool's `linsolve` documents and tests this `0` convention. -/
def inverseMod (a n : Int) : Int :=
  match (List.range n.toNat).find? (fun x : Nat => (a * (x : Int)) % n = 1) with
  | some x => (x : Int)
  | none => 0

end cryptomath

namespace affine

/-- Modelled from the spec: decryption of one character by the external
`affine::transformer` with key `(a, b)` over the lowercase alphabet.
Per the tool documentation, characters `A`-`Z` are lowercased first,
characters outside the alphabet are copied as-is, and an alphabet
character of residue `c` decrypts to residue `(c - b) * a⁻¹ (mod 26)`. -/
def decryptChar (a b c : Int) : Int :=
  let c' := if 65 ≤ c ∧ c ≤ 90 then c + 32 else c
  if 97 ≤ c' ∧ c' ≤ 122 then
    97 + cryptomath.mod ((c' - 97 - b) * cryptomath.inverseMod (cryptomath.mod a 26) 26) 26
  else c'

/-- Modelled from the spec: `affine::transformer(a, b, ALPHABET, false).decrypt`. -/
def decrypt (a b : Int) (s : List Int) : List Int := s.map (decryptChar a b)

end affine

/-- The result of `ALPHABET.find(c)` as stored into a `char` in the affine tool: the index
of `c` in `"abcdefghijklmnopqrstuvwxyz"`, or `-1` (the truncation of
`std::string::npos` to a byte) when `c` is not a lowercase letter. -/
def alphaIdx (c : Int) : Int := if 97 ≤ c ∧ c ≤ 122 then c - 97 else -1

/-- Both components of a known pair mapped through `alphaIdx`. -/
def alphaPair (p : Int × Int) : Int × Int := (alphaIdx p.1, alphaIdx p.2)

/-- The function `linsolve` from `tool_affinecipher/src/main.cpp`: solve
`y = alpha * x + beta (mod 26)` from two `(x, y)` pairs, returning
`(0, 0)` when the difference of the `x`s has no inverse or when the
resulting `alpha` is not coprime with 26. -/
def linsolve (p1 p2 : Int × Int) : Int × Int :=
  let x1 := p1.1; let y1 := p1.2
  let x2 := p2.1; let y2 := p2.2
  let inv := cryptomath.inverseMod (cryptomath.mod (x2 - x1) 26) 26
  if inv = 0 then (0, 0)
  else
    let alpha := cryptomath.mod ((y2 - y1) * inv) 26
    let beta := cryptomath.mod (y1 - x1 * alpha) 26
    if cryptomath.gcd alpha 26 = 1 then (alpha, beta) else (0, 0)

/-- The scanning loop of `checkSoln`: walk the known pairs in order with a
running match count, returning `-1` as soon as a pair is contradicted and
`2` as soon as two pairs have matched. -/
def checkGo (msg ciph : List Int) : List (Int × Int) → Nat → Int
  | [], m => (m : Int)
  | p :: rest, m =>
    match List.findIdx? (fun c => c = p.1) msg with
    | none => checkGo msg ciph rest m
    | some k =>
      if ciph.getD k 0 = p.2 then
        if m + 1 = 2 then 2 else checkGo msg ciph rest (m + 1)
      else -1

/-- The function `checkSoln` from `tool_affinecipher/src/main.cpp`: decrypt the
ciphertext line with key `(a, b)` and score it against the known pairs. -/
def checkSoln (a b : Int) (ciph : List Int) (known : List (Int × Int)) : Int × List Int :=
  let msg := affine.decrypt a b ciph
  (checkGo msg ciph known 0, msg)

/-- The score of candidate key `(a, b)` against a ciphertext line and the
known pairs (the first component of `checkSoln`). -/
def scoreOf (ciph : List Int) (known : List (Int × Int)) (p : Int × Int) : Int :=
  (checkSoln p.1 p.2 ciph known).1

/-- The `-ca` (`Crack_All`) double loop of `tool_affinecipher/src/main.cpp`,
flattened over the candidate list it enumerates: each candidate is scored,
printed when the score differs from `-1`, and the whole search stops right
after a candidate scores `2` (the `done` flag).  Returns the printed
candidates in order. -/
def crackAllGo (sc : Int × Int → Int) : List (Int × Int) → List (Int × Int)
  | [] => []
  | p :: rest =>
    let s := sc p
    (if s ≠ -1 then [p] else []) ++ (if s = 2 then [] else crackAllGo sc rest)

/-- The candidate keys the `-ca` loops enumerate: `a` over `[0, 26)` kept
only when `gcd(a, 26) = 1`, `b` over `[0, 26)`, in lexicographic order. -/
def crackAllPairs : List (Int × Int) :=
  ((List.range 26).filter (fun i => cryptomath.gcd (i : Int) 26 = 1)).bind
    (fun i => (List.range 26).map (fun j => ((i : Int), (j : Int))))

/-- The candidates printed by the `-ca` mode for one ciphertext line. -/
def crackAllPrinted (ciph : List Int) (known : List (Int × Int)) : List (Int × Int) :=
  crackAllGo (scoreOf ciph known) crackAllPairs

/-- The key pairs named by the specification for the brute-force crack:
`alpha` in `[1, 26)` with `gcd(alpha, 26) = 1`, `beta` in `[0, 26)`,
alpha-ascending then beta-ascending. -/
def validAffineKeys : List (Int × Int) :=
  ((List.range' 1 25).filter (fun i => Nat.gcd i 26 = 1)).bind
    (fun i => (List.range 26).map (fun j => ((i : Int), (j : Int))))

/-- Index pairs `(i, j)` with `i < j < n`, in the order of the nested
`for(i) for(j = i+1)` loops. -/
def lexTri (n : Nat) : List (Nat × Nat) :=
  (List.range n).bind (fun i => (List.range' (i + 1) (n - (i + 1))).map (fun j => (i, j)))

/-- Index pairs `(i, j)` with `i < n`, `j < m`, in the order of the nested
`for(i) for(j)` loops. -/
def lexRect (n m : Nat) : List (Nat × Nat) :=
  (List.range n).bind (fun i => (List.range m).map (fun j => (i, j)))

/-- Tier 1 of the `-cb` (`Crack_Best`) mode: for each unordered pair of
known pairs, run `linsolve`; the first fresh nonzero solution is printed
(with the decryption of the line, not reproduced here) and the `done`
flag stops the whole tier.  Returns
`(printed candidates, tested set, done)`. -/
def tier1Go (known : List (Int × Int)) :
    List (Nat × Nat) → List (Int × Int) → List (Int × Int) × List (Int × Int) × Bool
  | [], t => ([], t, false)
  | (i, j) :: rest, t =>
    let soln := linsolve (alphaPair (known.getD i (0, 0))) (alphaPair (known.getD j (0, 0)))
    if soln.1 = 0 then tier1Go known rest t
    else if soln ∈ t then tier1Go known rest t
    else ([soln], soln :: t, true)

/-- The tier-1 run of the `-cb` mode over all pairs of knowns. -/
def tier1 (known : List (Int × Int)) : List (Int × Int) × List (Int × Int) × Bool :=
  tier1Go known (lexTri known.length) []

/-- The candidates printed by tier 1 of the `-cb` mode. -/
def tier1Printed (known : List (Int × Int)) : List (Int × Int) := (tier1 known).1

/-- Result of one solve-and-verify tier of the `-cb` mode: the index
combinations that reached the `linsolve` call, the printed candidates, the
set of already-tested candidates, and the early-exit flag. -/
structure SolveOut where
  evaluated : List (Nat × Nat)
  printed : List (Int × Int)
  tested : List (Int × Int)
  done : Bool

/-- The common shape of tiers 2 and 3 of the `-cb` mode: walk index
combinations in order; `cand` returns `none` when the combination is
skipped before the linear solve, else the `linsolve` result.  A sentinel
`(0, *)` or already-tested solution is discarded; a fresh one is scored,
printed when the score is not `-1`, and ends the search when the score
is `2`. -/
def solveGo (cand : Nat × Nat → Option (Int × Int)) (sc : Int × Int → Int) :
    List (Nat × Nat) → List (Int × Int) → SolveOut
  | [], t => ⟨[], [], t, false⟩
  | c :: rest, t =>
    match cand c with
    | none => solveGo cand sc rest t
    | some soln =>
      if soln.1 = 0 then
        let o := solveGo cand sc rest t
        ⟨c :: o.evaluated, o.printed, o.tested, o.done⟩
      else if soln ∈ t then
        let o := solveGo cand sc rest t
        ⟨c :: o.evaluated, o.printed, o.tested, o.done⟩
      else
        let s := sc soln
        let pr := if s ≠ -1 then [soln] else []
        if s = 2 then ⟨[c], pr, soln :: t, true⟩
        else
          let o := solveGo cand sc rest (soln :: t)
          ⟨c :: o.evaluated, pr ++ o.printed, o.tested, o.done⟩

/-- The fixed English frequency-order string
`"etaoinsrhdlucmfywgpbvkxqjz"` of the affine tool, as character codes. -/
def AFF_FREQUENCIES : List Int :=
  [101, 116, 97, 111, 105, 110, 115, 114, 104, 100, 108, 117, 99,
   109, 102, 121, 119, 103, 112, 98, 118, 107, 120, 113, 106, 122]

/-- The tier-2 skip test as written in the source: the combination of
frequency rank `i` and known pair `j` proceeds only when
`freqs[i].first != known[j].first && freqs[i].second != known[j].second`
(the ranked ciphertext symbol against the known PLAIN symbol, and the
ranked symbol's COUNT against the known CIPHER symbol's character code). -/
def tier2Guard (freqs known : List (Int × Int)) (c : Nat × Nat) : Bool :=
  let fi := freqs.getD c.1 (0, 0)
  let kj := known.getD c.2 (0, 0)
  fi.1 ≠ kj.1 ∧ fi.2 ≠ kj.2

/-- Tier-2 candidate production: when the guard passes, solve the linear
system from the known pair and the hypothesis that the `i`-th ranked
ciphertext symbol decrypts to the `i`-th most frequent English letter. -/
def tier2Cand (freqs known : List (Int × Int)) (c : Nat × Nat) : Option (Int × Int) :=
  if tier2Guard freqs known c then
    some (linsolve (alphaPair (known.getD c.2 (0, 0)))
      (alphaIdx (AFF_FREQUENCIES.getD c.1 0), alphaIdx (freqs.getD c.1 (0, 0)).1))
  else none

/-- The tier-2 run of the `-cb` mode, parameterized by the sorted
frequency table and the initial tested set. -/
def tier2 (freqs known : List (Int × Int)) (ciph : List Int) (t : List (Int × Int)) : SolveOut :=
  solveGo (tier2Cand freqs known) (scoreOf ciph known) (lexRect 26 known.length) t

/-- Tier-3 candidate production: solve from two frequency hypotheses;
no combination is skipped before the solve. -/
def tier3Cand (freqs : List (Int × Int)) (c : Nat × Nat) : Option (Int × Int) :=
  some (linsolve
    (alphaIdx (AFF_FREQUENCIES.getD c.1 0), alphaIdx (freqs.getD c.1 (0, 0)).1)
    (alphaIdx (AFF_FREQUENCIES.getD c.2 0), alphaIdx (freqs.getD c.2 (0, 0)).1))

/-- The tier-3 run of the `-cb` mode. -/
def tier3 (freqs known : List (Int × Int)) (ciph : List Int) (t : List (Int × Int)) : SolveOut :=
  solveGo (tier3Cand freqs) (scoreOf ciph known) (lexTri 26) t

/-- The tier-2 skip condition as the specification states it: the
hypothesized plain symbol or the hypothesized cipher symbol collides with
the known pair's own plain or cipher symbol. -/
def collideSpec (hypPlain hypCipher knPlain knCipher : Int) : Bool :=
  hypPlain = knPlain ∨ hypCipher = knCipher

/-- The status of one known pair against a decrypted message: `0` when the
plain symbol does not occur in the decryption, `1` when the ciphertext
symbol at its first occurrence equals the pair's cipher symbol, `2` when
that comparison fails (the pair is contradicted). -/
def pairStatus (msg ciph : List Int) (p : Int × Int) : Nat :=
  match List.findIdx? (fun c => c = p.1) msg with
  | none => 0
  | some k => if ciph.getD k 0 = p.2 then 1 else 2

/-- The coincidence count of the Vigenere crack for one trial length `L`:
the number of positions `j` with `ciph[j] == ciph[j + L]` (the
`for(j=0,k=L; k<size)` loop of `main_vigenere.cpp`). -/
def matchCount (ciph : List Nat) (L : Nat) : Nat :=
  (ciph.zip (ciph.drop L)).countP (fun q => q.1 == q.2)

/-- One step of the best-length tracking loop: a strictly better count
resets the guess list, an equal count appends, a worse one is ignored. -/
def guessStep (f : Nat → Nat) (st : List Nat × Nat) (i : Nat) : List Nat × Nat :=
  if f i > st.2 then ([i], f i) else if f i = st.2 then (st.1 ++ [i], st.2) else st

/-- The best-length tracking loop over a list of candidate lengths,
starting from the empty guess list and best count `0`. -/
def guessFold (f : Nat → Nat) (l : List Nat) : List Nat × Nat := l.foldl (guessStep f) ([], 0)

/-- The retained candidate key lengths for a sample and maximum length:
the source iterates `i` over `[1, key_max]`. -/
def guessLengths (ciph : List Nat) (kmax : Nat) : List Nat :=
  (guessFold (matchCount ciph) (List.range' 1 kmax)).1

/-- The final best coincidence count of the length-estimation loop. -/
def bestCoincidence (ciph : List Nat) (kmax : Nat) : Nat :=
  (guessFold (matchCount ciph) (List.range' 1 kmax)).2

/-- The `tolower` conversion on a byte as used by the Vigenere crack's sample reader. -/
def vigLower (c : Nat) : Nat := if 65 ≤ c ∧ c ≤ 90 then c + 32 else c

/-- One input line filtered for the Vigenere sample: each character is
lowercased and kept only when it is a lowercase letter
(`ALPHABET.find(c) != npos`). -/
def vigFilterLine (l : List Nat) : List Nat :=
  l.filterMap (fun c0 =>
    let c := vigLower c0
    if 97 ≤ c ∧ c ≤ 122 then some c else none)

/-- The sample-reading loop of the Vigenere crack: a further line is
consumed only while the sample so far holds fewer than 2000 symbols, and
the whole filtered line is appended. -/
def readSampleAux : List (List Nat) → List Nat → List Nat
  | [], acc => acc
  | l :: ls, acc =>
    if acc.length < 2000 then readSampleAux ls (acc ++ vigFilterLine l) else acc

/-- The ciphertext sample the Vigenere crack works on, from the input
lines. -/
def readSample (lines : List (List Nat)) : List Nat := readSampleAux lines []

/-- The largest filtered length of any input line. -/
def maxFilteredLen (lines : List (List Nat)) : Nat :=
  (lines.map (fun l => (vigFilterLine l).length)).foldr max 0

/-- The index sequence of one Vigenere column: every `len`-th position
starting at `start` (the `for(i = start; i < size; i += len)` loop),
as a filter over all positions. -/
def colIndices (start len n : Nat) : List Nat :=
  (List.range n).filter (fun i => start ≤ i ∧ (i - start) % len = 0)

/-- One Vigenere column of the sample: the symbols at the column's
indices.  Its length is the `ciph_.size()` divisor of the percentage
computation. -/
def vigColumn (ciph : List Nat) (start len : Nat) : List Nat :=
  (colIndices start len ciph.length).map (fun i => ciph.getD i 0)

/-- The denominators of every frequency-percentage division the Vigenere
crack performs: for each retained length and each column start offset,
the column's symbol count (`freqs[i].second / (double)ciph_.size()` is
computed with no zero guard). -/
def crackDivisors (ciph : List Nat) (kmax : Nat) : List Nat :=
  (guessLengths ciph kmax).bind (fun len =>
    (List.range len).map (fun start => (vigColumn ciph start len).length))

/-- The fixed English letter-frequency table of `main_vigenere.cpp`
(`{.082, .015, ...}`), idealized from `double` to exact rationals. -/
def FREQR : List ℚ :=
  [82/1000, 15/1000, 28/1000, 43/1000, 127/1000, 22/1000, 20/1000, 61/1000, 70/1000,
   2/1000, 8/1000, 40/1000, 24/1000, 67/1000, 75/1000, 19/1000, 1/1000, 60/1000,
   63/1000, 91/1000, 28/1000, 10/1000, 23/1000, 1/1000, 20/1000, 1/1000]

/-- The correlation score the source computes for shift `i`: starting at
`freq = (26 - i) % 26` and stepping `freq` cyclically, it accumulates
`FREQUENCIES[freq] * W[j]`, so the `j`-th term reads the reference at
index `(26 - i + j) % 26`.  `W` is the column's percentage vector. -/
def dotCode (W : Nat → ℚ) (i : Nat) : ℚ :=
  ((List.range 26).map (fun j => FREQR.getD ((26 - i + j) % 26) 0 * W j)).sum

/-- The shift-search loop: `maxDot` starts at `0`, `maxShift` starts
uninitialized (modelled as `none`), and a strictly larger score updates
both.  The first argument is the score function, the second the number
of shifts tried so far. -/
def shiftLoopAux (f : Nat → ℚ) : Nat → ℚ × Option Nat
  | 0 => (0, none)
  | n + 1 =>
    let p := shiftLoopAux f n
    if f n > p.1 then (f n, some n) else p

/-- The shift selected by the source's loop over all 26 shifts, or
`none` when no score ever exceeded `0` (in which case the C++ reads an
uninitialized variable). -/
def maxShift (W : Nat → ℚ) : Option Nat := (shiftLoopAux (dotCode W) 26).2

/-- The key symbol the source emits for a column: `ALPHABET[maxShift]`. -/
def vigKeySymbol (W : Nat → ℚ) : Option Nat :=
  (maxShift W).map (fun s => (List.range' 97 26).getD s 0)

/-- The score formula as the specification words it:
`score(s) = sum of reference[(s + j) % 26] * columnFreq[j]`.  Stated for
comparison with `dotCode`. -/
def dotSpec (W : Nat → ℚ) (s : Nat) : ℚ :=
  ((List.range 26).map (fun j => FREQR.getD ((s + j) % 26) 0 * W j)).sum

/-- The shift search run on the specification's score formula. -/
def maxShiftSpec (W : Nat → ℚ) : Option Nat := (shiftLoopAux (dotSpec W) 26).2

/-- The percentage vector of a column consisting only of the letter
`'b'`. -/
def Wb : Nat → ℚ := fun j => if j = 1 then 1 else 0

/-- The 255-entry count table a Vigenere column is profiled into:
entry `s` holds symbol `s` and its occurrence count in the column. -/
def freqTable (col : List Nat) : List (Nat × Nat) :=
  (List.range 255).map (fun s => (s, col.count s))

/-- The outcome of `std::sort` with comparator `l.second > r.second`:
some permutation of the table that is sorted by non-increasing count
(the order among tied counts is unspecified). -/
def SortedDescPerm (base ord : List (Nat × Nat)) : Prop :=
  base.Perm ord ∧ ord.Pairwise (fun p q => q.2 ≤ p.2)

/-- The write index `freqs[i].first - 'a'` of the percentage
normalization, as the signed value the C++ `int` arithmetic computes. -/
def writeIdx (ord : List (Nat × Nat)) (i : Nat) : Int :=
  ((ord.getD i (0, 0)).1 : Int) - 97

/-- A column containing each letter exactly once. -/
def colAll : List Nat := List.range' 97 26

/-- A valid descending order of the all-letters column's table: the 26
letter entries (count 1) first, then the zero-count entries. -/
def ordAll : List (Nat × Nat) :=
  (List.range' 97 26).map (fun s => (s, 1)) ++
    (((List.range 97).map (fun s => (s, 0))) ++ ((List.range' 123 132).map (fun s => (s, 0))))

/-- Characterization of the early-exit print loop: the printed candidates
are the evaluated ones (everything before the first score-2 candidate,
plus that candidate itself) with the score `-1` ones removed. -/
theorem crackAllGo_eq (sc : Int × Int → Int) (l : List (Int × Int)) :
    crackAllGo sc l =
      ((l.takeWhile (fun p => sc p ≠ 2) ++ (l.dropWhile (fun p => sc p ≠ 2)).take 1).filter
        (fun p => sc p ≠ -1)) := by
  induction l with
  | nil => simp [crackAllGo]
  | cons p rest ih =>
    by_cases h2 : sc p = 2
    · have hne : ¬(sc p ≠ -1) = false := by simp [h2]
      simp [crackAllGo, h2, List.takeWhile, List.dropWhile, List.filter]
    · simp only [crackAllGo, h2, if_false, List.takeWhile_cons, List.dropWhile_cons]
      by_cases h1 : sc p = -1
      · simp [h1, h2, ih, List.filter]
      · simp [h1, h2, ih, List.filter]

/-- C2: the `-ca` brute force prints exactly the evaluated candidates whose
`MatchScore` is not `-1`, where the evaluated candidates are the valid keys
(alpha in `[1, 26)` coprime with 26, beta in `[0, 26)`, in lexicographic
order) up to and including the first one whose score is `2`. -/
theorem crackAll_spec (ciph : List Int) (known : List (Int × Int)) :
    crackAllPrinted ciph known =
      ((validAffineKeys.takeWhile (fun p => scoreOf ciph known p ≠ 2) ++
        (validAffineKeys.dropWhile (fun p => scoreOf ciph known p ≠ 2)).take 1).filter
          (fun p => scoreOf ciph known p ≠ -1))
    ∧ crackAllPairs = validAffineKeys := by
  have hpairs : crackAllPairs = validAffineKeys := by
    simp only [crackAllPairs, validAffineKeys]
    decide
  exact ⟨by rw [crackAllPrinted, crackAllGo_eq, hpairs], hpairs⟩

/-- Every candidate a solve-and-verify tier prints has a score other
than `-1`: the print is guarded by the `checkSoln` result. -/
theorem solveGo_printed_all (cand : Nat × Nat → Option (Int × Int)) (sc : Int × Int → Int) :
    ∀ (l : List (Nat × Nat)) (t : List (Int × Int)),
      ((solveGo cand sc l t).printed.all (fun p => sc p != -1)) = true := by
  intro l
  induction l with
  | nil => intro t; rfl
  | cons c rest ih =>
    intro t
    simp only [solveGo]
    split
    · exact ih t
    · rename_i soln hc
      by_cases h0 : soln.1 = 0
      · rw [if_pos h0]; exact ih t
      · rw [if_neg h0]
        by_cases ht : soln ∈ t
        · rw [if_pos ht]; exact ih t
        · rw [if_neg ht]
          by_cases h2 : sc soln = 2
          · rw [if_pos h2]
            have h1 : sc soln ≠ -1 := by rw [h2]; decide
            simp [h1]
          · rw [if_neg h2]
            simp only [List.all_append, Bool.and_eq_true]
            refine ⟨?_, ih _⟩
            by_cases h1 : sc soln = -1
            · simp [h1]
            · simp [h1]

/-- As long as the early-exit flag never fires, a solve-and-verify tier
passes exactly the non-skipped index combinations to the linear solve,
in loop order. -/
theorem solveGo_evaluated (cand : Nat × Nat → Option (Int × Int)) (sc : Int × Int → Int) :
    ∀ (l : List (Nat × Nat)) (t : List (Int × Int)),
      (solveGo cand sc l t).done = false →
      (solveGo cand sc l t).evaluated = l.filter (fun c => (cand c).isSome) := by
  intro l
  induction l with
  | nil => intro t _; rfl
  | cons c rest ih =>
    intro t hdone
    simp only [solveGo] at hdone ⊢
    split at hdone
    · rename_i hc
      rw [List.filter_cons_of_neg (by simp [hc])]
      exact ih t hdone
    · rename_i soln hc
      rw [List.filter_cons_of_pos (by simp [hc])]
      by_cases h0 : soln.1 = 0
      · rw [if_pos h0] at hdone ⊢
        exact congrArg (c :: ·) (ih t hdone)
      · rw [if_neg h0] at hdone ⊢
        by_cases ht : soln ∈ t
        · rw [if_pos ht] at hdone ⊢
          exact congrArg (c :: ·) (ih t hdone)
        · rw [if_neg ht] at hdone ⊢
          by_cases h2 : sc soln = 2
          · rw [if_pos h2] at hdone; exact absurd hdone (by simp)
          · rw [if_neg h2] at hdone ⊢
            exact congrArg (c :: ·) (ih (soln :: t) hdone)

/-- A tier-2 combination produces a candidate exactly when the source's
skip test lets it through. -/
theorem tier2Cand_isSome (freqs known : List (Int × Int)) (c : Nat × Nat) :
    (tier2Cand freqs known c).isSome = tier2Guard freqs known c := by
  by_cases h : tier2Guard freqs known c = true
  · simp [tier2Cand, h]
  · simp only [Bool.not_eq_true] at h
    simp [tier2Cand, h]

/-- C1 (counterexample): with knowns `('a','f'), ('b','i'), ('c','q')` and
ciphertext line `"l"`, tier 1 of the `-cb` mode prints the candidate
`(3, 5)` solved from the first two knowns even though its `MatchScore`
against all knowns is `-1` (the third known contradicts it): tier 1
reports without decrypt-and-score verification. -/
theorem tier1_prints_unverified_cex :
    tier1Printed [(97, 102), (98, 105), (99, 113)] = [(3, 5)] ∧
    (checkSoln 3 5 [108] [(97, 102), (98, 105), (99, 113)]).1 = -1 := by decide

/-- C1 (amended): in tiers 2 and 3 of the `-cb` mode every printed
candidate has been verified by decrypting and scoring, and none with
`MatchScore = -1` is printed; tier 1 prints its first fresh linear-solve
solution without such verification (see the counterexample). -/
theorem tier23_printed_verified (freqs known : List (Int × Int)) (ciph : List Int)
    (t1 t2 : List (Int × Int)) :
    ((tier2 freqs known ciph t1).printed.all (fun p => scoreOf ciph known p != -1)) = true ∧
    ((tier3 freqs known ciph t2).printed.all (fun p => scoreOf ciph known p != -1)) = true :=
  ⟨solveGo_printed_all _ _ _ _, solveGo_printed_all _ _ _ _⟩

/-- C7 (counterexample): with ranked entry `('q', count 5)` and known pair
`('e', 'x')`, the specification's collision test fires (the hypothesized
plain symbol `'e'` equals the known pair's plain symbol), yet the source
does not skip the combination: index pair `(0, 0)` still reaches the
linear solve.  The source compares the ranked CIPHER symbol with the
known PLAIN symbol and the ranked symbol's COUNT with the known cipher
symbol's character code. -/
theorem tier2_skip_condition_cex :
    collideSpec (AFF_FREQUENCIES.getD 0 0) 113 101 120 = true ∧
    ((0, 0) ∈ (tier2 [(113, 5)] [(101, 120)] [] []).evaluated) := by decide

/-- C7 (amended): provided the search does not terminate early on a
confident match, tier 2 passes to the linear solve exactly the
combinations with `freqs[i].first != known[j].first` and
`freqs[i].second != known[j].second`, in loop order. -/
theorem tier2_evaluated_spec (freqs known : List (Int × Int)) (ciph : List Int)
    (t : List (Int × Int)) (h : (tier2 freqs known ciph t).done = false) :
    (tier2 freqs known ciph t).evaluated =
      (lexRect 26 known.length).filter (tier2Guard freqs known) := by
  have he := solveGo_evaluated (tier2Cand freqs known) (scoreOf ciph known)
    (lexRect 26 known.length) t h
  rw [tier2, he]
  exact List.filter_congr (fun c _ => tier2Cand_isSome freqs known c)

/-- Witness for the amended C7 theorem at a concrete non-terminating run. -/
theorem tier2_evaluated_spec_witness :
    (tier2 [(113, 5)] [(101, 120)] [] []).evaluated =
      (lexRect 26 [((101 : Int), (120 : Int))].length).filter
        (tier2Guard [(113, 5)] [(101, 120)]) :=
  tier2_evaluated_spec [(113, 5)] [(101, 120)] [] [] (by decide)

/-- The gcd with 26 is invariant under reduction mod 26: the bridge between
the abstract "a modular inverse of `d` exists" condition and the reduced
argument the code passes to `inverseMod`. -/
theorem gcd_emod26 (d : Int) : Int.gcd (d % 26) 26 = Int.gcd d 26 := by
  apply Nat.dvd_antisymm
  · have h1 : ((Int.gcd (d % 26) 26 : ℤ)) ∣ d % 26 := Int.gcd_dvd_left
    have h2 : ((Int.gcd (d % 26) 26 : ℤ)) ∣ 26 := Int.gcd_dvd_right
    have h3 : ((Int.gcd (d % 26) 26 : ℤ)) ∣ d := by
      have hd : 26 * (d / 26) + d % 26 = d := Int.ediv_add_emod d 26
      calc ((Int.gcd (d % 26) 26 : ℤ)) ∣ 26 * (d / 26) + d % 26 :=
        dvd_add (Dvd.dvd.mul_right h2 _) h1
      _ = d := hd
    exact Int.natCast_dvd_natCast.mp (Int.dvd_gcd h3 h2)
  · have h1 : ((Int.gcd d 26 : ℤ)) ∣ d := Int.gcd_dvd_left
    have h2 : ((Int.gcd d 26 : ℤ)) ∣ 26 := Int.gcd_dvd_right
    have h3 : ((Int.gcd d 26 : ℤ)) ∣ d % 26 := by
      rw [Int.emod_def]
      exact dvd_sub h1 (Dvd.dvd.mul_right h2 _)
    exact Int.natCast_dvd_natCast.mp (Int.dvd_gcd h3 h2)

/-- When `gcd(d, 26) = 1`, `inverseMod` on the reduced residue returns a
nonzero inverse of `d` modulo 26. -/
theorem inverseMod_exists (d : Int) (h : Int.gcd d 26 = 1) :
    (d * cryptomath.inverseMod (d % 26) 26) % 26 = 1 ∧ cryptomath.inverseMod (d % 26) 26 ≠ 0 := by
  have hnn : (0 : Int) ≤ d % 26 := Int.emod_nonneg d (by decide)
  have hcast : (((d % 26).natAbs : ℤ)) = d % 26 := Int.natAbs_of_nonneg hnn
  have hcop : Nat.Coprime (d % 26).natAbs 26 := by
    have : Int.gcd (d % 26) 26 = 1 := by rw [gcd_emod26]; exact h
    exact this
  obtain ⟨m, hm⟩ := Nat.exists_mul_emod_eq_one_of_coprime hcop (by norm_num)
  have hxlt : m % 26 < 26 := Nat.mod_lt _ (by norm_num)
  have hx1 : (d % 26).natAbs * (m % 26) % 26 = 1 := by
    rw [Nat.mul_mod, Nat.mod_mod_of_dvd m (dvd_refl 26), ← Nat.mul_mod]
    exact hm
  have hpred : ((d % 26) * ((m % 26 : ℕ) : ℤ)) % 26 = 1 := by
    rw [← hcast]
    exact_mod_cast hx1
  have hIs : ((List.range (26 : Int).toNat).find?
      (fun x : Nat => decide (((d % 26) * (x : Int)) % 26 = 1))).isSome := by
    rw [List.find?_isSome]
    refine ⟨m % 26, ?_, ?_⟩
    · exact List.mem_range.mpr hxlt
    · simpa using hpred
  rcases hfind : (List.range (26 : Int).toNat).find?
      (fun x : Nat => decide (((d % 26) * (x : Int)) % 26 = 1)) with _ | x0
  · rw [hfind] at hIs; simp at hIs
  · have hP : ((d % 26) * (x0 : ℤ)) % 26 = 1 := by
      have := List.find?_some hfind
      simpa using this
    have hval : cryptomath.inverseMod (d % 26) 26 = (x0 : ℤ) := by
      unfold cryptomath.inverseMod
      rw [hfind]
    constructor
    · rw [hval]
      calc (d * (x0 : ℤ)) % 26 = ((d % 26) * ((x0 : ℤ) % 26)) % 26 := by rw [Int.mul_emod]
      _ = ((d % 26) % 26 * ((x0 : ℤ) % 26)) % 26 := by rw [Int.emod_emod_of_dvd _ (dvd_refl 26)]
      _ = ((d % 26) * (x0 : ℤ)) % 26 := by rw [← Int.mul_emod]
      _ = 1 := hP
    · rw [hval]
      intro h0
      rw [h0] at hP
      simp at hP

/-- When `gcd(d, 26) != 1`, `inverseMod` on the reduced residue returns
the no-inverse sentinel `0`. -/
theorem inverseMod_none (d : Int) (h : Int.gcd d 26 ≠ 1) :
    cryptomath.inverseMod (d % 26) 26 = 0 := by
  unfold cryptomath.inverseMod
  have hfind : (List.range (26 : Int).toNat).find?
      (fun x : Nat => decide (((d % 26) * (x : Int)) % 26 = 1)) = none := by
    rw [List.find?_eq_none]
    intro x _ hx
    simp only [decide_eq_true_eq] at hx
    apply h
    rw [← gcd_emod26]
    have h1 : ((Int.gcd (d % 26) 26 : ℤ)) ∣ d % 26 := Int.gcd_dvd_left
    have h2 : ((Int.gcd (d % 26) 26 : ℤ)) ∣ 26 := Int.gcd_dvd_right
    have h3 : ((Int.gcd (d % 26) 26 : ℤ)) ∣ 1 := by
      have hdef : ((d % 26) * (x : ℤ)) % 26 = (d % 26) * x - 26 * ((d % 26) * x / 26) :=
        Int.emod_def _ _
      rw [hx] at hdef
      rw [hdef]
      exact dvd_sub (Dvd.dvd.mul_right h1 _) (Dvd.dvd.mul_right h2 _)
    have := Int.eq_one_of_dvd_one (by norm_num) h3
    exact_mod_cast this
  rw [hfind]

/-- C6: `linsolve` behaviour.  When `gcd(x2 - x1, 26) != 1` (no modular
inverse) the sentinel `(0, 0)` is returned.  When the inverse exists,
for any witness `u` of the inverse, the result is
`alpha = (y2 - y1) * u mod 26`, `beta = y1 - x1 * alpha mod 26` if
`gcd(alpha, 26) = 1` and the sentinel otherwise.  Callers discard the
sentinel and continue: a tier-1 step whose solve returns `(0, 0)` leaves
the state unchanged, and a tier-2/3 step whose candidate has a zero first
component prints and tests nothing. -/
theorem linsolve_spec (p1 p2 : Int × Int) :
    (Int.gcd (p2.1 - p1.1) 26 ≠ 1 → linsolve p1 p2 = (0, 0))
    ∧ (Int.gcd (p2.1 - p1.1) 26 = 1 →
        ∀ u : Int, ((p2.1 - p1.1) * u) % 26 = 1 →
          linsolve p1 p2 =
            if Int.gcd (((p2.2 - p1.2) * u) % 26) 26 = 1 then
              (((p2.2 - p1.2) * u) % 26, (p1.2 - p1.1 * (((p2.2 - p1.2) * u) % 26)) % 26)
            else (0, 0))
    ∧ (∀ (known : List (Int × Int)) (i j : Nat) (rest : List (Nat × Nat))
        (t : List (Int × Int)),
        linsolve (alphaPair (known.getD i (0, 0))) (alphaPair (known.getD j (0, 0))) = (0, 0) →
        tier1Go known ((i, j) :: rest) t = tier1Go known rest t)
    ∧ (∀ (cand : Nat × Nat → Option (Int × Int)) (sc : Int × Int → Int) (c : Nat × Nat)
        (rest : List (Nat × Nat)) (t : List (Int × Int)) (soln : Int × Int),
        cand c = some soln → soln.1 = 0 →
        (solveGo cand sc (c :: rest) t).printed = (solveGo cand sc rest t).printed ∧
        (solveGo cand sc (c :: rest) t).tested = (solveGo cand sc rest t).tested ∧
        (solveGo cand sc (c :: rest) t).done = (solveGo cand sc rest t).done) := by
  refine ⟨?_, ?_, ?_, ?_⟩
  · intro h
    have h0 : cryptomath.inverseMod (cryptomath.mod (p2.1 - p1.1) 26) 26 = 0 :=
      inverseMod_none _ h
    simp [linsolve, h0]
  · intro h u hu
    obtain ⟨hinv1, hinv0⟩ := inverseMod_exists (p2.1 - p1.1) h
    have h1 : (p2.1 - p1.1) * cryptomath.inverseMod ((p2.1 - p1.1) % 26) 26 ≡ 1 [ZMOD 26] := by
      show _ % (26 : Int) = 1 % (26 : Int)
      rw [hinv1]
      norm_num
    have h2 : (p2.1 - p1.1) * u ≡ 1 [ZMOD 26] := by
      show _ % (26 : Int) = 1 % (26 : Int)
      rw [hu]
      norm_num
    have h3 : cryptomath.inverseMod ((p2.1 - p1.1) % 26) 26 ≡ u [ZMOD 26] := by
      calc cryptomath.inverseMod ((p2.1 - p1.1) % 26) 26
          = cryptomath.inverseMod ((p2.1 - p1.1) % 26) 26 * 1 := (mul_one _).symm
      _ ≡ cryptomath.inverseMod ((p2.1 - p1.1) % 26) 26 * ((p2.1 - p1.1) * u) [ZMOD 26] :=
          Int.ModEq.mul_left _ h2.symm
      _ = ((p2.1 - p1.1) * cryptomath.inverseMod ((p2.1 - p1.1) % 26) 26) * u := by ring
      _ ≡ 1 * u [ZMOD 26] := Int.ModEq.mul_right u h1
      _ = u := one_mul u
    have hcong : ((p2.2 - p1.2) * cryptomath.inverseMod ((p2.1 - p1.1) % 26) 26) % 26 =
        ((p2.2 - p1.2) * u) % 26 := Int.ModEq.mul_left (p2.2 - p1.2) h3
    simp only [linsolve, cryptomath.mod, cryptomath.gcd]
    rw [if_neg hinv0, hcong]
  · intro known i j rest t hsol
    simp only [tier1Go, hsol]
    norm_num
  · intro cand sc c rest t soln hc h0
    refine ⟨?_, ?_, ?_⟩ <;> simp [solveGo, hc, h0]

/-- Witness for `linsolve_spec` at the concrete pairs `(0, 5)`, `(1, 8)`
with inverse witness `u = 1`. -/
theorem linsolve_spec_witness :
    linsolve (0, 5) (1, 8) =
      if Int.gcd ((((8 : Int) - 5) * 1) % 26) 26 = 1 then
        ((((8 : Int) - 5) * 1) % 26, ((5 : Int) - 0 * ((((8 : Int) - 5) * 1) % 26)) % 26)
      else (0, 0) :=
  (linsolve_spec (0, 5) (1, 8)).2.1 (by decide) 1 (by decide)

/-- The scanning loop returns `2` as soon as two pairs match, `-1` when a
contradiction is met first, and the match count otherwise. -/
theorem checkGo_eq (msg ciph : List Int) :
    ∀ (l : List (Int × Int)) (m : Nat), m < 2 →
      checkGo msg ciph l m =
        if 2 ∈ l.map (pairStatus msg ciph) then
          (if 2 ≤ m + ((l.map (pairStatus msg ciph)).takeWhile (fun s => s != 2)).count 1
            then 2 else -1)
        else ((min (m + (l.map (pairStatus msg ciph)).count 1) 2 : Nat) : Int) := by
  intro l
  induction l with
  | nil =>
    intro m hm
    simp [checkGo]
    omega
  | cons p l ih =>
    intro m hm
    simp only [List.map_cons]
    have hunf : checkGo msg ciph (p :: l) m =
        match List.findIdx? (fun c => c = p.1) msg with
        | none => checkGo msg ciph l m
        | some k =>
          if ciph.getD k 0 = p.2 then
            if m + 1 = 2 then 2 else checkGo msg ciph l (m + 1)
          else -1 := rfl
    have hst : pairStatus msg ciph p =
        match List.findIdx? (fun c => c = p.1) msg with
        | none => 0
        | some k => if ciph.getD k 0 = p.2 then 1 else 2 := rfl
    rcases hs : List.findIdx? (fun c => c = p.1) msg with _ | k
    · have hunf2 : checkGo msg ciph (p :: l) m = checkGo msg ciph l m := by rw [hunf, hs]
      have hst2 : pairStatus msg ciph p = 0 := by rw [hst, hs]
      rw [hunf2, ih m hm]
      simp only [hst2]
      by_cases hmem : 2 ∈ l.map (pairStatus msg ciph)
      · simp [hmem, List.takeWhile_cons, List.count_cons]
      · simp [hmem, List.count_cons]
    · have hunf2 : checkGo msg ciph (p :: l) m =
          if ciph.getD k 0 = p.2 then
            if m + 1 = 2 then 2 else checkGo msg ciph l (m + 1)
          else -1 := by rw [hunf, hs]
      have hst2 : pairStatus msg ciph p = (if ciph.getD k 0 = p.2 then 1 else 2) := by
        rw [hst, hs]
      by_cases hmatch : ciph.getD k 0 = p.2
      · rw [if_pos hmatch] at hunf2 hst2
        simp only [hst2]
        by_cases hm1 : m = 1
        · subst hm1
          rw [hunf2, if_pos (by norm_num : 1 + 1 = 2)]
          by_cases hmem : 2 ∈ l.map (pairStatus msg ciph)
          · have hmem1 : (2 : Nat) ∈ 1 :: l.map (pairStatus msg ciph) := by simp [hmem]
            rw [if_pos hmem1, List.takeWhile_cons]
            norm_num [List.count_cons]
            split <;> omega
          · have hmem1 : ¬ (2 : Nat) ∈ 1 :: l.map (pairStatus msg ciph) := by simp [hmem]
            rw [if_neg hmem1, List.count_cons]
            norm_num
            omega
        · have hm0 : m = 0 := by omega
          subst hm0
          rw [hunf2, if_neg (by norm_num : ¬ 0 + 1 = 2)]
          have hrec : (0 : Nat) + 1 = 1 := by norm_num
          rw [hrec, ih 1 (by norm_num)]
          by_cases hmem : 2 ∈ l.map (pairStatus msg ciph)
          · have hmem1 : (2 : Nat) ∈ 1 :: l.map (pairStatus msg ciph) := by simp [hmem]
            rw [if_pos hmem, if_pos hmem1, List.takeWhile_cons]
            norm_num [List.count_cons]
            omega
          · have hmem1 : ¬ (2 : Nat) ∈ 1 :: l.map (pairStatus msg ciph) := by simp [hmem]
            rw [if_neg hmem, if_neg hmem1, List.count_cons]
            norm_num
            omega
      · rw [if_neg hmatch] at hunf2 hst2
        rw [hunf2]
        simp only [hst2]
        have hmem : (2 : Nat) ∈ 2 :: l.map (pairStatus msg ciph) := by simp
        rw [if_pos hmem]
        have htw : ((2 : Nat) :: l.map (pairStatus msg ciph)).takeWhile (fun s => s != 2) = [] := by
          simp [List.takeWhile_cons]
        rw [htw]
        have hc : ¬ 2 ≤ m + List.count 1 ([] : List Nat) := by simp; omega
        rw [if_neg hc]

/-- C3 (counterexample): for key `(1, 0)` (identity), ciphertext `"abc"`
and knowns `('a','a'), ('b','b'), ('c','x')`, the third known pair is
contradicted (status `2`), yet `checkSoln` returns `2`, not `-1`:
the scan stops as soon as two pairs have matched and never examines the
contradicted pair. -/
theorem checkSoln_masked_contradiction_cex :
    (checkSoln 1 0 [97, 98, 99] [(97, 97), (98, 98), (99, 120)]).1 = 2 ∧
    pairStatus (affine.decrypt 1 0 [97, 98, 99]) [97, 98, 99] (99, 120) = 2 ∧
    ((99 : Int), (120 : Int)) ∈ [((97 : Int), (97 : Int)), (98, 98), (99, 120)] := by decide

/-- C3 (amended): `checkSoln` scans the known pairs in order.  It returns
`2` as soon as two pairs have matched (later pairs, contradicted or not,
are never examined), `-1` when a contradicted pair is met before two
matches, and otherwise the number of matched pairs (`0` or `1`); pairs
whose plain symbol is absent from the decryption contribute nothing.
The second component is the decryption of the line. -/
theorem checkSoln_spec (a b : Int) (ciph : List Int) (known : List (Int × Int)) :
    (checkSoln a b ciph known).1 =
      (if 2 ∈ known.map (pairStatus (affine.decrypt a b ciph) ciph) then
        (if 2 ≤ ((known.map (pairStatus (affine.decrypt a b ciph) ciph)).takeWhile
            (fun s => s != 2)).count 1 then 2 else -1)
      else ((min ((known.map (pairStatus (affine.decrypt a b ciph) ciph)).count 1) 2 : Nat) : Int))
    ∧ (checkSoln a b ciph known).2 = affine.decrypt a b ciph := by
  constructor
  · have h := checkGo_eq (affine.decrypt a b ciph) ciph known 0 (by norm_num)
    simpa using h
  · rfl

/-- A running maximum is at least its seed. -/
theorem foldl_max_init_le (f : Nat → Nat) :
    ∀ (l : List Nat) (b : Nat), b ≤ l.foldl (fun m i => max m (f i)) b := by
  intro l
  induction l with
  | nil => intro b; exact le_refl b
  | cons i tl ih =>
    intro b
    calc b ≤ max b (f i) := le_max_left _ _
    _ ≤ tl.foldl (fun m i => max m (f i)) (max b (f i)) := ih _

/-- A running maximum bounds every listed value. -/
theorem foldl_max_mem_le (f : Nat → Nat) :
    ∀ (l : List Nat) (b : Nat), ∀ i ∈ l, f i ≤ l.foldl (fun m i => max m (f i)) b := by
  intro l
  induction l with
  | nil => intro b i hi; exact absurd hi (List.not_mem_nil i)
  | cons j tl ih =>
    intro b i hi
    rcases List.mem_cons.mp hi with h | h
    · subst h
      calc f i ≤ max b (f i) := le_max_right _ _
      _ ≤ tl.foldl (fun m i => max m (f i)) (max b (f i)) := foldl_max_init_le f tl _
    · exact ih _ i h

/-- A running maximum is its seed or is attained by a listed value. -/
theorem foldl_max_attained (f : Nat → Nat) :
    ∀ (l : List Nat) (b : Nat), l.foldl (fun m i => max m (f i)) b = b ∨
      ∃ i ∈ l, l.foldl (fun m i => max m (f i)) b = f i := by
  intro l
  induction l with
  | nil => intro b; exact Or.inl rfl
  | cons j tl ih =>
    intro b
    rcases ih (max b (f j)) with h | h
    · by_cases hbj : f j ≤ b
      · left
        rw [List.foldl_cons, h]
        omega
      · right
        exact ⟨j, List.mem_cons_self j tl, by rw [List.foldl_cons, h]; omega⟩
    · right
      obtain ⟨i, hi, hee⟩ := h
      exact ⟨i, List.mem_cons_of_mem j hi, hee⟩

/-- The tracking loop keeps exactly the elements whose value equals the
final maximum, in input order. -/
theorem guessFold_go (f : Nat → Nat) :
    ∀ (l : List Nat) (acc : List Nat) (b : Nat),
      l.foldl (guessStep f) (acc, b) =
        ((if b = l.foldl (fun m i => max m (f i)) b then acc else []) ++
          l.filter (fun i => f i == l.foldl (fun m i => max m (f i)) b),
         l.foldl (fun m i => max m (f i)) b) := by
  intro l
  induction l with
  | nil => intro acc b; simp
  | cons j tl ih =>
    intro acc b
    rw [List.foldl_cons, List.foldl_cons]
    by_cases h1 : f j > b
    · have hstep : guessStep f (acc, b) j = ([j], f j) := by
        unfold guessStep
        rw [if_pos h1]
      have hseed : max b (f j) = f j := by omega
      rw [hstep, ih [j] (f j), hseed]
      have hM : f j ≤ tl.foldl (fun m i => max m (f i)) (f j) := foldl_max_init_le f tl _
      have hbM : b ≠ tl.foldl (fun m i => max m (f i)) (f j) := by omega
      rw [if_neg hbM]
      by_cases h2 : f j = tl.foldl (fun m i => max m (f i)) (f j)
      · rw [if_pos h2, List.filter_cons_of_pos (by simpa using h2)]
        simp
      · rw [if_neg h2, List.filter_cons_of_neg (by simpa using h2)]
    · by_cases h2 : f j = b
      · have hstep : guessStep f (acc, b) j = (acc ++ [j], b) := by
          unfold guessStep
          rw [if_neg h1, if_pos h2]
        have hseed : max b (f j) = b := by omega
        rw [hstep, ih (acc ++ [j]) b, hseed]
        by_cases h3 : b = tl.foldl (fun m i => max m (f i)) b
        · rw [if_pos h3, if_pos h3,
            List.filter_cons_of_pos (by simp; omega)]
          simp
        · rw [if_neg h3, if_neg h3,
            List.filter_cons_of_neg (by simp; omega)]
      · have hlt : f j < b := by omega
        have hstep : guessStep f (acc, b) j = (acc, b) := by
          unfold guessStep
          rw [if_neg h1, if_neg h2]
        have hseed : max b (f j) = b := by omega
        rw [hstep, ih acc b, hseed]
        have hbM : b ≤ tl.foldl (fun m i => max m (f i)) b := foldl_max_init_le f tl _
        rw [List.filter_cons_of_neg (by simp; omega)]

/-- C5: length estimation retains exactly the candidate lengths in
`[1, maxKeyLength]` whose coincidence count equals the maximum (all ties
kept), every count is bounded by that maximum, the maximum is zero or
attained, and the retained list is in ascending length order (which is
the emission order of the key-generation loop). -/
theorem guessLengths_spec (ciph : List Nat) (kmax : Nat) :
    guessLengths ciph kmax =
      (List.range' 1 kmax).filter (fun L => matchCount ciph L == bestCoincidence ciph kmax)
    ∧ (∀ L ∈ List.range' 1 kmax, matchCount ciph L ≤ bestCoincidence ciph kmax)
    ∧ (bestCoincidence ciph kmax = 0 ∨
        ∃ L ∈ List.range' 1 kmax, matchCount ciph L = bestCoincidence ciph kmax)
    ∧ List.Sorted (· < ·) (guessLengths ciph kmax) := by
  have hgo := guessFold_go (matchCount ciph) (List.range' 1 kmax) [] 0
  have hbest : bestCoincidence ciph kmax =
      (List.range' 1 kmax).foldl (fun m i => max m (matchCount ciph i)) 0 := by
    unfold bestCoincidence guessFold
    rw [hgo]
  have hlen : guessLengths ciph kmax =
      (List.range' 1 kmax).filter
        (fun L => matchCount ciph L ==
          (List.range' 1 kmax).foldl (fun m i => max m (matchCount ciph i)) 0) := by
    unfold guessLengths guessFold
    rw [hgo]
    simp
  refine ⟨?_, ?_, ?_, ?_⟩
  · rw [hlen, hbest]
  · intro L hL
    rw [hbest]
    exact foldl_max_mem_le _ _ _ L hL
  · rcases foldl_max_attained (matchCount ciph) (List.range' 1 kmax) 0 with h | h
    · left
      rw [hbest, h]
    · right
      obtain ⟨i, hi, he⟩ := h
      refine ⟨i, hi, ?_⟩
      rw [hbest]
      exact he.symm
  · rw [hlen]
    exact (List.pairwise_lt_range' 1 kmax).sublist (List.filter_sublist _)

/-- Filtering a run of `'a'`s keeps every symbol. -/
theorem vigFilterLine_replicate (n : Nat) :
    vigFilterLine (List.replicate n 97) = List.replicate n 97 := by
  induction n with
  | zero => rfl
  | succ k ih =>
    rw [List.replicate_succ]
    have h97 : (let c := vigLower 97
        if 97 ≤ c ∧ c ≤ 122 then some c else none) = some 97 := by norm_num [vigLower]
    unfold vigFilterLine
    rw [List.filterMap_cons, h97]
    show 97 :: vigFilterLine (List.replicate k 97) = 97 :: List.replicate k 97
    rw [ih]

/-- C8 (counterexample): a single input line of 2001 letters yields a
working sample of 2001 symbols — the sample exceeds the 2000 cap, because
the cap is only checked before a line is consumed and the whole line is
then appended. -/
theorem sample_cap_exceeded_cex : 2000 < (readSample [List.replicate 2001 97]).length := by
  show 2000 < (readSampleAux [List.replicate 2001 97] []).length
  rw [readSampleAux]
  rw [if_pos (by norm_num)]
  rw [readSampleAux]
  rw [List.nil_append, vigFilterLine_replicate, List.length_replicate]
  norm_num

/-- The sample-reading loop, from any partial sample, overshoots the cap
by less than one filtered line. -/
theorem readSampleAux_length_le (lines : List (List Nat)) :
    ∀ acc : List Nat,
      (readSampleAux lines acc).length ≤ max acc.length (1999 + maxFilteredLen lines) := by
  induction lines with
  | nil => intro acc; simp [readSampleAux]
  | cons l ls ih =>
    intro acc
    rw [readSampleAux]
    by_cases h : acc.length < 2000
    · rw [if_pos h]
      have h1 := ih (acc ++ vigFilterLine l)
      have h2 : (acc ++ vigFilterLine l).length = acc.length + (vigFilterLine l).length :=
        List.length_append _ _
      have h3 : maxFilteredLen (l :: ls) = max (vigFilterLine l).length (maxFilteredLen ls) :=
        rfl
      omega
    · rw [if_neg h]
      omega

/-- C8 (amended): the sample reader consumes lines only while it has
gathered fewer than 2000 symbols, so the final sample holds at most
`1999 + (longest filtered line)` symbols; it can exceed 2000 by up to the
filtered length of the last line consumed (see the counterexample). -/
theorem readSample_length_bound (lines : List (List Nat)) :
    (readSample lines).length ≤ 1999 + maxFilteredLen lines := by
  have h := readSampleAux_length_le lines []
  simpa using h

/-- A column is empty exactly when its start offset is not below the
sample length. -/
theorem vigColumn_empty_iff (ciph : List Nat) (start len : Nat) :
    (vigColumn ciph start len).length = 0 ↔ ciph.length ≤ start := by
  unfold vigColumn colIndices
  rw [List.length_map]
  constructor
  · intro h
    by_contra hlt
    push_neg at hlt
    have hmem : start ∈ (List.range ciph.length).filter
        (fun i => decide (start ≤ i ∧ (i - start) % len = 0)) := by
      apply List.mem_filter.mpr
      refine ⟨List.mem_range.mpr hlt, ?_⟩
      simp
    have hne : (List.range ciph.length).filter
        (fun i => decide (start ≤ i ∧ (i - start) % len = 0)) ≠ [] :=
      List.ne_nil_of_mem hmem
    exact hne (List.length_eq_zero.mp h)
  · intro h
    rw [List.length_eq_zero]
    apply List.filter_eq_nil_iff.mpr
    intro i hi
    have := List.mem_range.mp hi
    simp only [decide_eq_true_eq, not_and]
    intro hle
    omega

/-- C9: the percentage computation divides by the column size with no
zero guard, and a zero divisor is reachable: on an empty input sample
with `maxKeyLength = 1`, length `1` is retained and its single column is
empty, so the division at that column has denominator `0`.  In general a
column is empty exactly when the sample is no longer than the column's
start offset. -/
theorem empty_column_zero_divisor :
    crackDivisors [] 1 = [0]
    ∧ ∀ (ciph : List Nat) (start len : Nat),
        (vigColumn ciph start len).length = 0 ↔ ciph.length ≤ start :=
  ⟨by decide, vigColumn_empty_iff⟩

/-- The literal form of the shift index list. -/
theorem hrange26 : List.range 26 =
    [0, 1, 2, 3, 4, 5, 6, 7, 8, 9, 10, 11, 12, 13, 14, 15, 16, 17, 18, 19, 20,
     21, 22, 23, 24, 25] := by rfl

/-- On the all-`'b'` column the source's score at shift `i` is the
reference value at `(26 - i + 1) % 26`. -/
theorem dotCode_Wb (i : Nat) : dotCode Wb i = FREQR.getD ((26 - i + 1) % 26) 0 := by
  rw [dotCode, hrange26]
  norm_num [Wb]

/-- On the all-`'b'` column the specification's formula at shift `s` is
the reference value at `(s + 1) % 26`. -/
theorem dotSpec_Wb (s : Nat) : dotSpec Wb s = FREQR.getD ((s + 1) % 26) 0 := by
  rw [dotSpec, hrange26]
  norm_num [Wb]

/-- C4 (counterexample): on the all-`'b'` column the computed score at
shift 3 differs from the specification's formula, the source selects
shift 23 and emits `'x'` (code 120), while the specification's formula
is maximized at shift 3, whose alphabet symbol is `'d'` (code 100):
the spec's index direction `(s + j) % 26` does not match the code's
`(26 - s + j) % 26`. -/
theorem shift_score_direction_cex :
    dotCode Wb 3 ≠ dotSpec Wb 3 ∧ maxShift Wb = some 23 ∧ maxShiftSpec Wb = some 3 ∧
    vigKeySymbol Wb = some 120 ∧ (120 : Nat) ≠ (List.range' 97 26).getD 3 0 := by
  refine ⟨?_, ?_, ?_, ?_, by decide⟩
  · rw [dotCode_Wb, dotSpec_Wb]
    norm_num [FREQR]
  · rw [maxShift]
    norm_num [shiftLoopAux, dotCode_Wb, FREQR]
  · rw [maxShiftSpec]
    norm_num [shiftLoopAux, dotSpec_Wb, FREQR]
  · rw [vigKeySymbol, maxShift]
    norm_num [shiftLoopAux, dotCode_Wb, FREQR]

/-- The running maximum of the shift search never drops below `0`. -/
theorem shiftLoopAux_nonneg (f : Nat → ℚ) : ∀ n, 0 ≤ (shiftLoopAux f n).1 := by
  intro n
  induction n with
  | zero => exact le_refl 0
  | succ k ih =>
    rw [shiftLoopAux]
    by_cases h : f k > (shiftLoopAux f k).1
    · rw [if_pos h]
      exact le_of_lt (lt_of_le_of_lt ih h)
    · rw [if_neg h]
      exact ih

/-- The running maximum bounds every score tried so far. -/
theorem shiftLoopAux_bound (f : Nat → ℚ) : ∀ n, ∀ i < n, f i ≤ (shiftLoopAux f n).1 := by
  intro n
  induction n with
  | zero => intro i hi; omega
  | succ k ih =>
    intro i hi
    rw [shiftLoopAux]
    by_cases h : f k > (shiftLoopAux f k).1
    · rw [if_pos h]
      rcases Nat.lt_succ_iff_lt_or_eq.mp hi with h2 | h2
      · exact le_of_lt (lt_of_le_of_lt (ih i h2) h)
      · subst h2; exact le_refl _
    · rw [if_neg h]
      rcases Nat.lt_succ_iff_lt_or_eq.mp hi with h2 | h2
      · exact ih i h2
      · subst h2; exact le_of_not_lt h
  

/-- A selected shift was tried, carries the running maximum, and strictly
beats every earlier shift. -/
theorem shiftLoopAux_some (f : Nat → ℚ) : ∀ n s, (shiftLoopAux f n).2 = some s →
    s < n ∧ (shiftLoopAux f n).1 = f s ∧ ∀ t < s, f t < f s := by
  intro n
  induction n with
  | zero => intro s hs; exact absurd hs (by rw [shiftLoopAux]; simp)
  | succ k ih =>
    intro s hs
    rw [shiftLoopAux] at hs ⊢
    by_cases h : f k > (shiftLoopAux f k).1
    · rw [if_pos h] at hs ⊢
      have hsk : s = k := by simpa using hs.symm
      subst hsk
      refine ⟨Nat.lt_succ_self s, rfl, ?_⟩
      intro t ht
      exact lt_of_le_of_lt (shiftLoopAux_bound f s t ht) h
    · rw [if_neg h] at hs ⊢
      obtain ⟨h1, h2, h3⟩ := ih s hs
      exact ⟨Nat.lt_succ_of_lt h1, h2, h3⟩

/-- If no shift was ever selected the running maximum is still `0`. -/
theorem shiftLoopAux_none (f : Nat → ℚ) : ∀ n, (shiftLoopAux f n).2 = none →
    (shiftLoopAux f n).1 = 0 := by
  intro n
  induction n with
  | zero => intro _; rfl
  | succ k ih =>
    rw [shiftLoopAux]
    by_cases h : f k > (shiftLoopAux f k).1
    · rw [if_pos h]
      intro hs
      exact absurd hs (by simp)
    · rw [if_neg h]
      exact ih

/-- Every reference frequency is positive. -/
theorem freqr_pos : ∀ k < 26, 0 < FREQR.getD k 0 := by
  intro k hk
  interval_cases k <;> norm_num [FREQR]

/-- C4 (amended): for a column frequency vector with nonnegative entries
and at least one positive entry, the per-column search emits
`alphabet[s]` for the shift `s` whose score
`sum of reference[(26 - s + j) % 26] * columnFreq[j]` (equivalently
`reference[(j - s) mod 26]`) is maximal, keeping the first maximizing
shift on ties. -/
theorem shift_search_spec (W : Nat → ℚ) (h0 : ∀ j < 26, 0 ≤ W j)
    (h1 : ∃ j, j < 26 ∧ 0 < W j) :
    ∃ s, s < 26 ∧ maxShift W = some s ∧
      vigKeySymbol W = some ((List.range' 97 26).getD s 0) ∧
      dotCode W s = ((List.range 26).map (fun j => FREQR.getD ((26 - s + j) % 26) 0 * W j)).sum ∧
      (∀ t < 26, dotCode W t ≤ dotCode W s) ∧
      (∀ t < s, dotCode W t < dotCode W s) := by
  obtain ⟨j0, hj0, hj0pos⟩ := h1
  have hpos : 0 < dotCode W 0 := by
    rw [dotCode]
    have hmem : FREQR.getD ((26 - 0 + j0) % 26) 0 * W j0 ∈
        (List.range 26).map (fun j => FREQR.getD ((26 - 0 + j) % 26) 0 * W j) :=
      List.mem_map_of_mem _ (List.mem_range.mpr hj0)
    have hnn : ∀ x ∈ (List.range 26).map (fun j => FREQR.getD ((26 - 0 + j) % 26) 0 * W j),
        0 ≤ x := by
      intro x hx
      obtain ⟨j, hj, rfl⟩ := List.mem_map.mp hx
      have hjlt := List.mem_range.mp hj
      exact mul_nonneg (le_of_lt (freqr_pos _ (Nat.mod_lt _ (by norm_num)))) (h0 j hjlt)
    have hsingle := List.single_le_sum hnn _ hmem
    have htpos : 0 < FREQR.getD ((26 - 0 + j0) % 26) 0 * W j0 :=
      mul_pos (freqr_pos _ (Nat.mod_lt _ (by norm_num))) hj0pos
    exact lt_of_lt_of_le htpos hsingle
  rcases hms : (shiftLoopAux (dotCode W) 26).2 with _ | s
  · exfalso
    have h1' := shiftLoopAux_none (dotCode W) 26 hms
    have h2' := shiftLoopAux_bound (dotCode W) 26 0 (by norm_num)
    rw [h1'] at h2'
    exact absurd (lt_of_lt_of_le hpos h2') (lt_irrefl 0)
  · obtain ⟨hs26, hval, hstrict⟩ := shiftLoopAux_some (dotCode W) 26 s hms
    refine ⟨s, hs26, hms, ?_, rfl, ?_, hstrict⟩
    · rw [vigKeySymbol, maxShift, hms]
      rfl
    · intro t ht
      have hb := shiftLoopAux_bound (dotCode W) 26 t ht
      rw [hval] at hb
      exact hb

/-- Witness for the amended C4 theorem at the all-`'b'` column. -/
theorem shift_search_spec_witness :
    ∃ s, s < 26 ∧ maxShift Wb = some s ∧
      vigKeySymbol Wb = some ((List.range' 97 26).getD s 0) ∧
      dotCode Wb s = ((List.range 26).map (fun j => FREQR.getD ((26 - s + j) % 26) 0 * Wb j)).sum ∧
      (∀ t < 26, dotCode Wb t ≤ dotCode Wb s) ∧
      (∀ t < s, dotCode Wb t < dotCode Wb s) :=
  shift_search_spec Wb (by intro j hj; rw [Wb]; split <;> norm_num)
    ⟨1, by norm_num, by norm_num [Wb]⟩

/-- A relation that always holds is pairwise on every list. -/
theorem pairwise_of_total {α : Type} (R : α → α → Prop) (h : ∀ a b, R a b) :
    ∀ (l : List α), l.Pairwise R := by
  intro l
  induction l with
  | nil => exact List.Pairwise.nil
  | cons a t ih => exact List.Pairwise.cons (fun b _ => h a b) ih

/-- For a column of letters in which every letter occurs, exactly 26
table entries have a positive count. -/
theorem freqTable_count_letters (col : List Nat)
    (hcol : ∀ c ∈ col, 97 ≤ c ∧ c < 123)
    (hall : ∀ s < 123, 97 ≤ s → 0 < col.count s) :
    (freqTable col).countP (fun p => 0 < p.2) = 26 := by
  rw [freqTable, List.countP_map]
  have hc : ∀ s ∈ List.range 255,
      (((fun p : Nat × Nat => decide (0 < p.2)) ∘ (fun s => (s, col.count s))) s = true ↔
        (fun s => decide (97 ≤ s ∧ s < 123)) s = true) := by
    intro s _
    simp only [Function.comp_apply, decide_eq_true_eq]
    constructor
    · intro hpos
      have hmem : s ∈ col := List.count_pos_iff.mp hpos
      exact ⟨(hcol s hmem).1, (hcol s hmem).2⟩
    · intro ⟨h1, h2⟩
      exact hall s h2 h1
  rw [List.countP_congr hc]
  decide

/-- In a descending-sorted table with 26 positive entries, the first 26
entries are exactly the positive ones. -/
theorem sorted_prefix_pos (ord : List (Nat × Nat))
    (hsort : ord.Pairwise (fun p q => q.2 ≤ p.2))
    (hlen : ord.length = 255)
    (hcnt : ord.countP (fun p => 0 < p.2) = 26) :
    ∀ i < 26, 0 < (ord.getD i (0, 0)).2 := by
  intro i hi
  by_contra h0
  push_neg at h0
  have hi255 : i < ord.length := by omega
  have hgetd : ord.getD i (0, 0) = ord[i] := List.getD_eq_getElem ord (0, 0) hi255
  have hzi : ord[i].2 = 0 := by
    rw [hgetd] at h0
    omega
  have hzero : ∀ (j : Nat) (hj : j < ord.length), i ≤ j → ord[j].2 = 0 := by
    intro j hj hij
    rcases Nat.eq_or_lt_of_le hij with h | hlt
    · subst h
      exact hzi
    · have hrel := List.pairwise_iff_getElem.mp hsort i j hi255 hj hlt
      omega
  have hsplit : ord.countP (fun p => 0 < p.2) =
      (ord.take i).countP (fun p => 0 < p.2) + (ord.drop i).countP (fun p => 0 < p.2) := by
    rw [← List.countP_append, List.take_append_drop]
  have hdrop : (ord.drop i).countP (fun p => 0 < p.2) = 0 := by
    apply List.countP_eq_zero.mpr
    intro x hx
    obtain ⟨k, hk, hxe⟩ := List.mem_iff_getElem.mp hx
    have hklen : i + k < ord.length := by
      have := List.length_drop i ord
      omega
    have hxv : x = ord[i + k] := by
      rw [← hxe]
      exact List.getElem_drop ord
    have hz := hzero (i + k) hklen (by omega)
    rw [hxv]
    simp only [decide_eq_true_eq]
    omega
  have htake : (ord.take i).countP (fun p => 0 < p.2) ≤ i := by
    calc (ord.take i).countP (fun p => 0 < p.2) ≤ (ord.take i).length :=
      List.countP_le_length _
    _ ≤ i := List.length_take_le i ord
  omega

/-- C10: writing at `freqs[i].first - 'a'` for the 26 highest-ranked
entries stays inside `[0, 26)` whenever the column consists of letters
and every letter occurs, for every tie order the unstable sort may
produce; and when a letter is absent this fails: for the column `"bb"`
there is a valid descending order whose top 26 contains a non-letter
entry, whose write index is negative. -/
theorem freq_normalization_bounds :
    (∀ (col : List Nat) (ord : List (Nat × Nat)),
      (∀ c ∈ col, 97 ≤ c ∧ c < 123) →
      (∀ s < 123, 97 ≤ s → 0 < col.count s) →
      SortedDescPerm (freqTable col) ord →
      ∀ i < 26, 0 ≤ writeIdx ord i ∧ writeIdx ord i < 26)
    ∧ (∃ ord, SortedDescPerm (freqTable [98, 98]) ord ∧
        ∃ i, i < 26 ∧ (writeIdx ord i < 0 ∨ 26 ≤ writeIdx ord i)) := by
  constructor
  · intro col ord hcol hall hsp i hi
    obtain ⟨hperm, hsort⟩ := hsp
    have hlen : ord.length = 255 := by
      have h1 := hperm.length_eq
      simp [freqTable] at h1
      omega
    have hcnt : ord.countP (fun p => 0 < p.2) = 26 := by
      rw [← hperm.countP_eq]
      exact freqTable_count_letters col hcol hall
    have hpos := sorted_prefix_pos ord hsort hlen hcnt i hi
    have hi255 : i < ord.length := by omega
    have hmem : ord.getD i (0, 0) ∈ ord := by
      rw [List.getD_eq_getElem ord (0, 0) hi255]
      exact List.getElem_mem hi255
    have hmem2 : ord.getD i (0, 0) ∈ freqTable col := (hperm.mem_iff).mpr hmem
    rw [freqTable] at hmem2
    obtain ⟨s, hs, hse⟩ := List.mem_map.mp hmem2
    have hcount : 0 < col.count s := by
      rw [← hse] at hpos
      exact hpos
    have hsletter := hcol s (List.count_pos_iff.mp hcount)
    have hfst : (ord.getD i (0, 0)).1 = s := by
      rw [← hse]
    rw [writeIdx, hfst]
    omega
  · refine ⟨(98, 2) :: (((List.range 255).filter (fun s => s ≠ 98)).map (fun s => (s, 0))),
      ⟨?_, ?_⟩, 1, by norm_num, Or.inl (by decide)⟩
    · have htab : freqTable [98, 98] =
          ((List.range 98).map (fun s => (s, 0))) ++ (98, 2) ::
            ((List.range' 99 156).map (fun s => (s, 0))) := by decide
      have hfil : ((List.range 255).filter (fun s => s ≠ 98)).map
            (fun s => ((s : Nat), (0 : Nat))) =
          ((List.range 98).map (fun s => (s, 0))) ++
            ((List.range' 99 156).map (fun s => (s, 0))) := by decide
      rw [htab, hfil]
      exact List.perm_middle
    · apply List.Pairwise.cons
      · intro q hq
        obtain ⟨s, hs, rfl⟩ := List.mem_map.mp hq
        norm_num
      · apply List.pairwise_map.mpr
        apply pairwise_of_total
        intro a b
        exact Nat.le_refl 0

/-- Witness for the universal half of the normalization-bounds theorem,
at the all-letters column. -/
theorem freq_normalization_bounds_witness :
    0 ≤ writeIdx ordAll 0 ∧ writeIdx ordAll 0 < 26 := by
  have htab : freqTable colAll =
      ((List.range 97).map (fun s => (s, 0))) ++
        ((List.range' 97 26).map (fun s => (s, 1)) ++
          ((List.range' 123 132).map (fun s => (s, 0)))) := by decide
  have hperm : (freqTable colAll).Perm ordAll := by
    rw [htab, ordAll, ← List.append_assoc]
    have h2 := List.Perm.append_right
      ((List.range' 123 132).map (fun s => ((s : Nat), (0 : Nat))))
      (@List.perm_append_comm (Nat × Nat)
        ((List.range 97).map (fun s => (s, 0)))
        ((List.range' 97 26).map (fun s => (s, 1))))
    simpa [List.append_assoc] using h2
  have hsort : ordAll.Pairwise (fun p q => q.2 ≤ p.2) := by
    rw [ordAll]
    apply List.pairwise_append.mpr
    refine ⟨?_, ?_, ?_⟩
    · exact List.pairwise_map.mpr (pairwise_of_total _ (fun a b => Nat.le_refl 1) _)
    · apply List.pairwise_append.mpr
      refine ⟨?_, ?_, ?_⟩
      · exact List.pairwise_map.mpr (pairwise_of_total _ (fun a b => Nat.le_refl 0) _)
      · exact List.pairwise_map.mpr (pairwise_of_total _ (fun a b => Nat.le_refl 0) _)
      · intro a ha b hb
        obtain ⟨s, _, rfl⟩ := List.mem_map.mp ha
        obtain ⟨t, _, rfl⟩ := List.mem_map.mp hb
        exact Nat.le_refl 0
    · intro a ha b hb
      obtain ⟨s, _, rfl⟩ := List.mem_map.mp ha
      rcases List.mem_append.mp hb with h | h
      · obtain ⟨t, _, rfl⟩ := List.mem_map.mp h
        norm_num
      · obtain ⟨t, _, rfl⟩ := List.mem_map.mp h
        norm_num
  exact freq_normalization_bounds.1 colAll ordAll (by decide) (by decide)
    ⟨hperm, hsort⟩ 0 (by norm_num)


/-- Witness for the length-estimation theorem at a concrete sample. -/
theorem guessLengths_spec_witness :
    matchCount [97, 97] 1 ≤ bestCoincidence [97, 97] 2 :=
  (guessLengths_spec [97, 97] 2).2.1 1 (by decide)
